import Mathlib

set_option maxRecDepth 100000

/-!
Verification development for the difficulty-retargeting and proof-verification
core of the newlux node (src/rx2_helper.cpp) and its memoized RandomX hash
engine (src/crypto/rx2.cpp).

Machine integers are embedded as follows: the 256-bit unsigned type
arith_uint256 is a Nat reduced mod 2^256 at every wrapping operation;
int64_t is an unbounded Int (C++ signed overflow is undefined behaviour, so
the unbounded semantics is the defined-behaviour fragment), with C++ integer
division embedded as Int.tdiv (truncation toward zero); uint32_t values are
Nat reduced mod 2^32 where wrap can occur.  Fallible code (null-pointer
dereference, std::map::at on a missing key, arith_uint256 division by zero)
returns Option, with none standing for the C++ error.
-/

def p256 : Nat := 2 ^ 256

def p64 : Nat := 2 ^ 64

def p32 : Nat := 2 ^ 32

/-- int64_t converted to uint64_t (two's complement), then zero-extended, as
happens when a C++ int64_t is passed to an arith_uint256 operation. -/
def i64u (x : Int) : Nat := (x % (2 ^ 64 : Int)).toNat

/-- A block index record: the fields of CBlockIndex that this core reads.
The predecessor pointer is represented positionally: a chain is a tip-first
list of blocks whose last element is the genesis record, and the block at
list position i has height (length - 1 - i). -/
structure Blk where
  isPoS : Bool
  time : Int
  nBits : Nat
  hashv : Nat
deriving DecidableEq

abbrev Chain := List Blk

/-- Height of the head (tip) of a chain: list length minus one. -/
def heightOf (c : Chain) : Int := (c.length : Int) - 1

/-- CBlockIndex::GetAncestor: the block at the given height, or none when the
height is negative or above the tip. -/
def GetAncestor (c : Chain) (h : Int) : Option Blk :=
  if 0 ≤ h ∧ h ≤ (c.length : Int) - 1 then c.get? (((c.length : Int) - 1 - h).toNat)
  else none

/-- std::map at-lookup for the 1-based index-to-height context map, which is
represented as a list whose position k holds the entry with key k+1.  A
missing key is none (std::map::at throws). -/
def mapAt (m : List Int) (i : Int) : Option Int :=
  if 1 ≤ i ∧ i ≤ (m.length : Int) then m.get? ((i - 1).toNat) else none

/-- Modelled from the spec: arith_uint256::SetCompact (arith_uint256.cpp is
not under src/).  Decodes the 32-bit compact form, 8-bit exponent and 24-bit
mantissa whose bit 0x00800000 is the sign: value part. -/
def setCompactVal (nCompact : Nat) : Nat :=
  let nSize := nCompact / 2 ^ 24
  let nWord := nCompact % 2 ^ 23
  if nSize ≤ 3 then nWord / 2 ^ (8 * (3 - nSize))
  else nWord * 2 ^ (8 * (nSize - 3)) % p256

/-- Modelled from the spec: arith_uint256::SetCompact negative flag: the
mantissa is nonzero and the sign bit 0x00800000 is set. -/
def setCompactNeg (nCompact : Nat) : Bool :=
  decide (nCompact % 2 ^ 23 ≠ 0 ∧ (nCompact / 2 ^ 23) % 2 = 1)

/-- Modelled from the spec: arith_uint256::SetCompact overflow flag: the
mantissa is nonzero and the exponent pushes a set bit past 256 bits. -/
def setCompactOvf (nCompact : Nat) : Bool :=
  let nSize := nCompact / 2 ^ 24
  let nWord := nCompact % 2 ^ 23
  decide (nWord ≠ 0 ∧
    (nSize > 34 ∨ (nWord > 255 ∧ nSize > 33) ∨ (nWord > 65535 ∧ nSize > 32)))

/-- Number of significant bits of a 256-bit value (arith_uint256::bits),
computed with structural fuel so the kernel can evaluate it. -/
def bitsLenGo : Nat → Nat → Nat
  | 0, _ => 0
  | fuel + 1, x => if x = 0 then 0 else bitsLenGo fuel (x / 2) + 1

def bitsLen (x : Nat) : Nat := bitsLenGo 256 x

/-- Modelled from the spec: arith_uint256::GetCompact with fNegative = false
(the only call mode in this core): encode a 256-bit value into the compact
exponent-mantissa form, bumping the exponent when the mantissa would carry
the sign bit. -/
def getCompact (x : Nat) : Nat :=
  let nSize := (bitsLen x + 7) / 8
  let nCompact :=
    if nSize ≤ 3 then x % p64 * 2 ^ (8 * (3 - nSize))
    else x / 2 ^ (8 * (nSize - 3)) % p64
  if nCompact / 2 ^ 23 % 2 = 1 then nCompact / 2 ^ 8 + (nSize + 1) * 2 ^ 24
  else nCompact + nSize * 2 ^ 24

/-- GetLastBlockIndex: walk back from pindex while the block's proof kind
differs from the requested one, stopping at the genesis record. -/
def GetLastBlockIndex (fProofOfStake : Bool) : Chain → Chain
  | [] => []
  | [b] => [b]
  | b :: r :: rest =>
      if b.isPoS = fProofOfStake then b :: r :: rest
      else GetLastBlockIndex fProofOfStake (r :: rest)

/-- GetLastBlockIndexQtum is textually the same walk as GetLastBlockIndex. -/
def GetLastBlockIndexQtum (fProofOfStake : Bool) (c : Chain) : Chain :=
  GetLastBlockIndex fProofOfStake c

/-- CountPoS: count proof-of-stake blocks while walking predecessors, while
the block has a predecessor and its height exceeds nHeightScan. -/
def CountPoS : Chain → Int → Int
  | [], _ => 0
  | [_], _ => 0
  | b :: r :: rest, hScan =>
      if ((b :: r :: rest).length : Int) - 1 > hScan then
        (if b.isPoS then 1 else 0) + CountPoS (r :: rest) hScan
      else 0

/-- The walk inside GetContextLWMA: collect the heights of matching-kind
blocks (most recent first) while the running 1-based insert counter nIdx has
not passed nContextScope.  The two C++ while loops (proof-of-stake and
proof-of-work) have identical structure and differ only in the filter. -/
def getContextAux (fProofOfStake : Bool) (scope : Int) : Chain → Int → List Int
  | [], _ => []
  | [_], _ => []
  | b :: r :: rest, nIdx =>
      if nIdx ≤ scope then
        if b.isPoS = fProofOfStake then
          (((b :: r :: rest).length : Int) - 1) ::
            getContextAux fProofOfStake scope (r :: rest) (nIdx + 1)
        else getContextAux fProofOfStake scope (r :: rest) nIdx
      else []

/-- GetContextLWMA: the sorted index-to-height map of the most recent
matching-kind blocks, as the list whose position k holds the key k+1 entry. -/
def GetContextLWMA (c : Chain) (nContextScope : Int) (fProofOfStake : Bool) : List Int :=
  getContextAux fProofOfStake nContextScope c 0

/-- Consensus::Params: the fields this core reads. -/
structure Params where
  fPowNoRetargeting : Bool
  fPoSNoRetargeting : Bool
  nPowTargetSpacing : Int
  lwmaAveragingWindow : Int
  posLimit : Nat
  powLimit : Nat
  QIP9Height : Int
  nReduceBlocktimeHeight : Int
  QIP9PosLimit : Nat
  RBTPosLimit : Nat
  nRBTPowTargetSpacing : Int
  nPowTargetTimespan : Int
  nPowTargetTimespanV2 : Int
  nRBTPowTargetTimespan : Int
  nStakeTimestampMask : Nat
  nRBTStakeTimestampMask : Nat
  RX2SeedHeight : Nat
  RX2SeedInterval : Nat
deriving DecidableEq

def TargetSpacing (p : Params) (height : Int) : Int :=
  if height < p.nReduceBlocktimeHeight then p.nPowTargetSpacing
  else p.nRBTPowTargetSpacing

def TargetTimespan (p : Params) (height : Int) : Int :=
  if height < p.QIP9Height then p.nPowTargetTimespan
  else if height < p.nReduceBlocktimeHeight then p.nPowTargetTimespanV2
  else p.nRBTPowTargetTimespan

def DifficultyAdjustmentInterval (p : Params) (height : Int) : Int :=
  Int.tdiv (TargetTimespan p height) (TargetSpacing p height)

def StakeTimestampMask (p : Params) (height : Int) : Nat :=
  if height < p.nReduceBlocktimeHeight then p.nStakeTimestampMask
  else p.nRBTStakeTimestampMask

def GetLimit (nHeight : Int) (p : Params) (fProofOfStake : Bool) : Nat :=
  if fProofOfStake then
    if nHeight < p.QIP9Height then p.posLimit
    else if nHeight < p.nReduceBlocktimeHeight then p.QIP9PosLimit
    else p.RBTPosLimit
  else p.powLimit

/-- The ppcoin EMA fallback inside Lwma3CalculateNextWorkRequired, entered
when a proof-of-stake call has too few stake samples (lines 168-195).  Note
that bnNew is seeded from pindexLast->nBits (the unfiltered tip). -/
def emaFallback (c : Chain) (p : Params) (fProofOfStake : Bool)
    (ProofLimit : Nat) (T : Int) : Option Nat :=
  match GetLastBlockIndex fProofOfStake c with
  | [] => none
  | [_] => some (getCompact ProofLimit)
  | pPrev :: r :: rest =>
    match GetLastBlockIndex fProofOfStake (r :: rest) with
    | [] => none
    | [_] => some (getCompact ProofLimit)
    | pPrevPrev :: _ =>
      let sp0 := pPrev.time - pPrevPrev.time
      let sp1 := if sp0 < 0 then 1 else sp0
      let sp := if sp1 > T * 10 then T * 10 else sp1
      match c with
      | [] => none
      | bTip :: _ =>
        let bn := setCompactVal bTip.nBits
        let nInterval := Int.tdiv p.nPowTargetSpacing T
        let bn1 := bn * i64u ((nInterval - 1) * T + sp + sp) % p256
        let d := i64u ((nInterval + 1) * T)
        if d = 0 then none
        else
          let bn2 := bn1 / d
          some (getCompact (if bn2 = 0 ∨ bn2 > ProofLimit then ProofLimit else bn2))

/-- The main LWMA loop of Lwma3CalculateNextWorkRequired (lines 208-230):
the Nat argument is the loop counter i running from N down to 1, then the
running previousTimestamp, j, sumWeightedSolvetimes and avgTarget. -/
def lwmaGo (c : Chain) (ctx : List Int) (T k N : Int) :
    Nat → Int → Int → Int → Nat → Option (Int × Nat)
  | 0, _, _, sumW, avg => some (sumW, avg)
  | i + 1, prevTs, j, sumW, avg =>
    match mapAt ctx ((i : Int) + 1) with
    | none => none
    | some h =>
      match GetAncestor c h with
      | none => none
      | some b =>
        let thisTs := if b.time > prevTs then b.time else prevTs + 1
        let solvetime := min (6 * T) (thisTs - prevTs)
        let j1 := j + 1
        let sumW1 := sumW + solvetime * j1
        if i64u N = 0 ∨ i64u k = 0 then none
        else
          lwmaGo c ctx T k N i thisTs j1 sumW1
            ((avg + setCompactVal b.nBits / i64u N / i64u k) % p256)

/-- The tail of Lwma3CalculateNextWorkRequired after the context map is
built (lines 199-238). -/
def lwmaMain (c : Chain) (ctx : List Int) (T N k : Int) (ProofLimit : Nat) :
    Option Nat :=
  match mapAt ctx (N + 1) with
  | none => none
  | some h0 =>
    match GetAncestor c h0 with
    | none => none
    | some b0 =>
      match lwmaGo c ctx T k N N.toNat b0.time 0 0 0 with
      | none => none
      | some (sumW, avg) =>
        let nextTarget := avg * i64u sumW % p256
        let nextTarget := if nextTarget > ProofLimit then ProofLimit else nextTarget
        some (getCompact nextTarget)

/-- Lwma3CalculateNextWorkRequired (rx2_helper.cpp lines 137-239). -/
def Lwma3CalculateNextWorkRequired (c : Chain) (p : Params) (fProofOfStake : Bool) :
    Option Nat :=
  match c with
  | [] => none
  | _ :: _ =>
    if p.fPowNoRetargeting || p.fPoSNoRetargeting then
      (GetLastBlockIndex fProofOfStake c).head?.map Blk.nBits
    else
      let T := p.nPowTargetSpacing
      let N := p.lwmaAveragingWindow
      let k := Int.tdiv (N * (N + 1) * T) 2
      let height := heightOf c
      let ProofLimit := if fProofOfStake then p.posLimit else p.powLimit
      if height < N + 1 then some (getCompact ProofLimit)
      else
        let ctx := GetContextLWMA c (N + 1) fProofOfStake
        if fProofOfStake ∧ (ctx.length : Int) < N + 1 ∧ CountPoS c 0 ≤ N + 1 then
          emaFallback c p fProofOfStake ProofLimit T
        else lwmaMain c ctx T N k ProofLimit

/-- The loop of mul_exp (rx2_helper.cpp lines 52-68): result accumulates a
times exp(p/q) term by term; the Nat fuel argument only serves termination
and is chosen large enough (2^256) that the C++ loop, which always exits
once n exceeds any 256-bit value, is modelled exactly on every reachable
input; an exhausted fuel with a nonzero term is reported as none. -/
def mulExpGo (isNeg : Bool) (abs_p q : Nat) : Nat → Nat → Nat → Nat → Option Nat
  | 0, a, _, result => if a = 0 then some result else none
  | fuel + 1, a, n, result =>
    if a = 0 then some result
    else if q = 0 then none
    else
      let n1 := n + 1
      let a1 := a * abs_p % p256 / q / n1
      let result1 :=
        if isNeg ∧ n1 % 2 = 1 then (result + p256 - a1 % p256) % p256
        else (result + a1) % p256
      mulExpGo isNeg abs_p q fuel a1 n1 result1

/-- mul_exp: a * exp(p/q) in saturating-free wrapping 256-bit arithmetic;
division by a zero q (after int64-to-uint64 conversion) throws, hence none. -/
def mul_exp (a : Nat) (p q : Int) : Option Nat :=
  let isNeg := p < 0
  let abs_p := (if 0 ≤ p then p else -p).toNat
  mulExpGo isNeg abs_p (i64u q) p256 (a % p256) 0 (a % p256)

/-- The body of CalculateNextWorkRequired after the no-retargeting checks
(rx2_helper.cpp lines 316-346). -/
def calcRetargetBody (c : Chain) (bTip : Blk) (nFirstBlockTime : Int)
    (p : Params) (fProofOfStake : Bool) : Option Nat :=
  let nHeight := heightOf c + 1
  let nTargetSpacing := TargetSpacing p nHeight
  let nActualSpacing := bTip.time - nFirstBlockTime
  let bnTargetLimit := GetLimit nHeight p fProofOfStake
  let bn0 := setCompactVal bTip.nBits
  let nInterval := DifficultyAdjustmentInterval p nHeight
  if nHeight < p.QIP9Height then
    let sp1 := if nActualSpacing < 0 then nTargetSpacing else nActualSpacing
    let sp := if sp1 > nTargetSpacing * 10 then nTargetSpacing * 10 else sp1
    let bn1 := bn0 * i64u ((nInterval - 1) * nTargetSpacing + sp + sp) % p256
    let d := i64u ((nInterval + 1) * nTargetSpacing)
    if d = 0 then none
    else
      let bn2 := bn1 / d
      some (getCompact (if bn2 = 0 ∨ bn2 > bnTargetLimit then bnTargetLimit else bn2))
  else
    let sp1 := if nActualSpacing < 0 then nTargetSpacing else nActualSpacing
    let sp := if sp1 > nTargetSpacing * 20 then nTargetSpacing * 20 else sp1
    let mask := StakeTimestampMask p nHeight
    let pArg := Int.tdiv (2 * (sp - nTargetSpacing)) ((mask : Int) + 1)
    let qArg := Int.tdiv ((nInterval + 1) * nTargetSpacing) ((mask : Int) + 1)
    match mul_exp bn0 pArg qArg with
    | none => none
    | some bn2 =>
      some (getCompact (if bn2 = 0 ∨ bn2 > bnTargetLimit then bnTargetLimit else bn2))

/-- CalculateNextWorkRequired (rx2_helper.cpp lines 307-347). -/
def CalculateNextWorkRequired (c : Chain) (nFirstBlockTime : Int) (p : Params)
    (fProofOfStake : Bool) : Option Nat :=
  match c with
  | [] => none
  | bTip :: _ =>
    if fProofOfStake then
      if p.fPoSNoRetargeting then some bTip.nBits
      else calcRetargetBody c bTip nFirstBlockTime p fProofOfStake
    else
      if p.fPowNoRetargeting then some bTip.nBits
      else calcRetargetBody c bTip nFirstBlockTime p fProofOfStake

/-- CheckProofOfWork (rx2_helper.cpp lines 349-366): the hash and decoded
target are 256-bit unsigned magnitudes. -/
def CheckProofOfWork (hash : Nat) (nBits : Nat) (p : Params)
    (fProofOfStake : Bool) : Bool :=
  if setCompactNeg nBits || decide (setCompactVal nBits = 0) || setCompactOvf nBits
      || decide (setCompactVal nBits > p.powLimit) then false
  else if decide (hash > setCompactVal nBits) then false
  else true

/-- CChain::operator[] applied to a uint32 index that the int parameter
reinterprets: indices at or above 2^31 are negative ints, hence nullptr. -/
def chainLookup (c : Chain) (idx : Nat) : Option Blk :=
  if idx < 2 ^ 31 ∧ (idx : Int) ≤ heightOf c then
    c.get? (c.length - 1 - idx)
  else none

/-- uint32 subtraction with wrap. -/
def sub32 (a b : Nat) : Nat := (a % p32 + p32 - b % p32) % p32

/-- GetRandomXSeed (rx2_helper.cpp lines 9-38).  The static
current_key_block is threaded as the cur argument (its value before the
call; an all-zero uint256 is 0); the returned hash is also the new cached
value.  none models a null-pointer dereference of a failed chain lookup. -/
def GetRandomXSeed (c : Chain) (SSH SI nHeightArg cur : Nat) : Option Nat :=
  let nHeight := nHeightArg % p32
  let SwitchKey := SSH % p32 % (SI % p32)
  let cur1opt := if cur = 0 then c.getLast?.map Blk.hashv else some cur
  match cur1opt with
  | none => none
  | some cur1 =>
    let remainer := nHeight % (SI % p32)
    let first_check := sub32 nHeight remainer
    let second_check := sub32 (sub32 nHeight SI) remainer
    if nHeight > (first_check + SwitchKey) % p32 then
      if nHeight > first_check then
        (chainLookup c (sub32 first_check SSH)).map Blk.hashv
      else some cur1
    else
      if nHeight > second_check then
        (chainLookup c (sub32 second_check SSH)).map Blk.hashv
      else some cur1

/-- The function-local static state of rx_slow_hash2: the is-initialized
flag, the seed the cache and vm are keyed to, and the one-entry memo of the
previous input's first 144 bytes and previous 32-byte output.  The statics
start zero-initialized. -/
structure RxState where
  inited : Bool
  seed : Nat
  old_data : List Nat
  old_hash : List Nat
deriving DecidableEq

def rxInit : RxState := ⟨false, 0, List.replicate 144 0, List.replicate 32 0⟩

/-- rx_slow_hash (crypto/rx2.cpp lines 10-51): the underlying RandomX
primitive is the oracle f, applied with the vm keyed to the current seed;
after the lazy-init and seed-rotation steps that seed is always the
requested one, so the output is f seedhash data.  Only the inited flag and
seed persist (this function has no memo). -/
def rx_slow_hash (f : Nat → List Nat → List Nat) (st : Bool × Nat)
    (data : List Nat) (seedhash : Nat) : (Bool × Nat) × List Nat :=
  let st1 := if st.1 = false then (true, seedhash) else st
  let st2 := if st1.2 ≠ seedhash then (st1.1, seedhash) else st1
  (st2, f seedhash data)

/-- rx_slow_hash2 (crypto/rx2.cpp lines 54-105): same lazy-init and
seed-rotation as rx_slow_hash, then a one-entry memo that compares only the
first 144 bytes of the input against old_data and, on a hit, copies
old_hash out without invoking the primitive.  The memo is NOT cleared on
seed rotation. -/
def rx_slow_hash2 (f : Nat → List Nat → List Nat) (st : RxState)
    (data : List Nat) (seedhash : Nat) : RxState × List Nat :=
  let st1 := if st.inited = false then { st with inited := true, seed := seedhash } else st
  let st2 := if st1.seed ≠ seedhash then { st1 with seed := seedhash } else st1
  if data.take 144 = st2.old_data then (st2, st2.old_hash)
  else
    let h := f seedhash data
    ({ st2 with old_data := data.take 144, old_hash := h }, h)

/-! ## Shared concrete fixtures -/

/-- Realistic consensus parameters with both no-retargeting flags clear:
window N = 2, spacing T = 60, both proof limits 2^240, thresholds far away. -/
def paramsA : Params :=
  ⟨false, false, 60, 2, 2 ^ 240, 2 ^ 240, 1000000, 2000000, 2 ^ 238, 2 ^ 236, 30,
   960, 960, 480, 15, 3, 1000, 100⟩

/-- paramsA with only the proof-of-stake no-retargeting flag set. -/
def paramsPoSFlag : Params := { paramsA with fPoSNoRetargeting := true }

/-- A two-block chain: a proof-of-stake tip over a proof-of-work genesis. -/
def chainB : Chain := [⟨true, 100, 100, 0⟩, ⟨false, 0, 100, 0⟩]

/-- Flipping the non-governing no-retargeting flag of the other proof kind. -/
def setOtherFlag (p : Params) (fProofOfStake : Bool) (b : Bool) : Params :=
  if fProofOfStake then { p with fPowNoRetargeting := b }
  else { p with fPoSNoRetargeting := b }

/-! ## Small helper lemmas -/

lemma calcBody_powFlag_irrel (c : Chain) (b : Blk) (t : Int) (p : Params)
    (fP bv : Bool) :
    calcRetargetBody c b t { p with fPowNoRetargeting := bv } fP =
      calcRetargetBody c b t p fP := by
  cases p; rfl

lemma calcBody_posFlag_irrel (c : Chain) (b : Blk) (t : Int) (p : Params)
    (fP bv : Bool) :
    calcRetargetBody c b t { p with fPoSNoRetargeting := bv } fP =
      calcRetargetBody c b t p fP := by
  cases p; rfl

/-! ## Claim C10 -/

/-- C10: CheckProofOfWork returns the same boolean whether its fProofOfStake
argument is true or false; the body never reads the proof-kind argument and
always ranges against params.powLimit. -/
theorem C10_kind_independent (hash nBits : Nat) (p : Params) (k1 k2 : Bool) :
    CheckProofOfWork hash nBits p k1 = CheckProofOfWork hash nBits p k2 := rfl

/-! ## Claim C6 -/

/-- C6: CheckProofOfWork succeeds exactly when the compact decoding of nBits
is non-negative, nonzero, non-overflowing, within params.powLimit, and the
hash (as a 256-bit magnitude) is at most the decoded target; failures are
returned false values (the embedding is a total Bool-valued function).  A
hash equal to the target passes, one above fails, by the last conjunct. -/
theorem C6_check_iff (hash nBits : Nat) (p : Params) (fProofOfStake : Bool) :
    CheckProofOfWork hash nBits p fProofOfStake = true ↔
      (setCompactNeg nBits = false ∧ setCompactVal nBits ≠ 0 ∧
       setCompactOvf nBits = false ∧ setCompactVal nBits ≤ p.powLimit ∧
       hash ≤ setCompactVal nBits) := by
  unfold CheckProofOfWork
  by_cases h1 : setCompactNeg nBits <;>
    by_cases h2 : setCompactVal nBits = 0 <;>
      by_cases h3 : setCompactOvf nBits <;>
        by_cases h4 : setCompactVal nBits > p.powLimit <;>
          by_cases h5 : hash > setCompactVal nBits <;>
            simp [h1, h2, h3, h4, h5] <;> omega

/-! ## Claim C5 -/

/-- C5: with retargeting enabled, a tip height below N+1 makes
Lwma3CalculateNextWorkRequired return exactly the compact encoding of the
proof-limit target of the requested kind. -/
theorem C5_bootstrap (c : Chain) (p : Params) (fProofOfStake : Bool)
    (hc : c ≠ []) (hpow : p.fPowNoRetargeting = false)
    (hpos : p.fPoSNoRetargeting = false)
    (hh : heightOf c < p.lwmaAveragingWindow + 1) :
    Lwma3CalculateNextWorkRequired c p fProofOfStake =
      some (getCompact (if fProofOfStake then p.posLimit else p.powLimit)) := by
  cases c with
  | nil => exact absurd rfl hc
  | cons b rest => simp [Lwma3CalculateNextWorkRequired, hpow, hpos, hh]

theorem C5_witness :
    Lwma3CalculateNextWorkRequired chainB paramsA true =
      some (getCompact (if true then paramsA.posLimit else paramsA.powLimit)) :=
  C5_bootstrap chainB paramsA true (by decide) (by decide) (by decide) (by decide)

/-! ## Claim C3 -/

/-- The 144-byte test input: every byte 7. -/
def d144 : List Nat := List.replicate 144 7

/-- C3 (code bug): after a first call with data d144 under seed 1, a second
rx_slow_hash2 call with the same data under the different seed 2 rebuilds
the context but hits the stale memo and returns the seed-1 hash, while the
non-memoized rx_slow_hash computes the seed-2 hash for the same sequence:
the memo is NOT invalidated when the context is rebuilt for a changed seed,
so the memoized engine does not refine the plain one. -/
theorem C3_memo_stale (f : Nat → List Nat → List Nat) :
    (rx_slow_hash2 f (rx_slow_hash2 f rxInit d144 1).1 d144 2).2 = f 1 d144 ∧
    (rx_slow_hash f (rx_slow_hash f (false, 0) d144 1).1 d144 2).2 = f 2 d144 :=
  ⟨rfl, rfl⟩

/-! ## Claim C2 -/

/-- C2 counterexample: with fPoSNoRetargeting set and fPowNoRetargeting
clear, a PROOF-OF-WORK call of Lwma3CalculateNextWorkRequired still takes
the no-retargeting early return (the code tests the OR of both flags), so
the non-governing flag changes the proof-of-work result. -/
theorem C2_counterexample :
    Lwma3CalculateNextWorkRequired chainB paramsPoSFlag false ≠
      Lwma3CalculateNextWorkRequired chainB paramsA false := by decide

/-- C2 amended: in Lwma3CalculateNextWorkRequired, if EITHER no-retargeting
flag is set the bits of the most recent block of the requested kind are
returned; in CalculateNextWorkRequired the governing flag alone triggers the
early return, which yields the tip block's bits (not filtered by kind), and
when the governing flag is clear the other kind's flag has no effect. -/
theorem C2_amended :
    (∀ (c : Chain) (p : Params) (fP : Bool), c ≠ [] →
      (p.fPowNoRetargeting || p.fPoSNoRetargeting) = true →
      Lwma3CalculateNextWorkRequired c p fP =
        (GetLastBlockIndex fP c).head?.map Blk.nBits) ∧
    (∀ (c : Chain) (t : Int) (p : Params) (fP : Bool) (b : Blk) (rest : Chain),
      c = b :: rest →
      (if fP then p.fPoSNoRetargeting else p.fPowNoRetargeting) = true →
      CalculateNextWorkRequired c t p fP = some b.nBits) ∧
    (∀ (c : Chain) (t : Int) (p : Params) (fP bv : Bool),
      (if fP then p.fPoSNoRetargeting else p.fPowNoRetargeting) = false →
      CalculateNextWorkRequired c t p fP =
        CalculateNextWorkRequired c t (setOtherFlag p fP bv) fP) := by
  refine ⟨?_, ?_, ?_⟩
  · intro c p fP hc hflag
    cases c with
    | nil => exact absurd rfl hc
    | cons b rest => simp [Lwma3CalculateNextWorkRequired, hflag]
  · intro c t p fP b rest hce hgov
    subst hce
    cases fP <;> simp_all [CalculateNextWorkRequired]
  · intro c t p fP bv _
    cases p
    cases fP <;> cases c <;> rfl

theorem C2_witness :
    Lwma3CalculateNextWorkRequired chainB paramsPoSFlag false =
      (GetLastBlockIndex false chainB).head?.map Blk.nBits ∧
    CalculateNextWorkRequired chainB 0 paramsPoSFlag true = some 100 ∧
    CalculateNextWorkRequired chainB 0 paramsA false =
      CalculateNextWorkRequired chainB 0 (setOtherFlag paramsA false true) false :=
  ⟨C2_amended.1 chainB paramsPoSFlag false (by decide) (by decide),
   C2_amended.2.1 chainB 0 paramsPoSFlag true ⟨true, 100, 100, 0⟩
     [⟨false, 0, 100, 0⟩] rfl (by decide),
   C2_amended.2.2 chainB 0 paramsA false true (by decide)⟩

/-! ## Claim C4: the LWMA main loop -/

/-- Solve-time sequence as the claim words it: walking the window oldest to
newest, each block's effective timestamp is max(blockTime, previous + 1) and
its solve time is that increment capped at 6*T. -/
def solvetimes (T : Int) : Int → List Int → List Int
  | _, [] => []
  | prev, t :: ts =>
    min (6 * T) (max t (prev + 1) - prev) :: solvetimes T (max t (prev + 1)) ts

/-- Linearly weighted sum with starting weight w: the k-th element from the
head (0-based) receives weight w + k, so with w = 1 the oldest solve time
has weight 1 and the newest (last) has weight equal to the window length. -/
def weightedSum : Int → List Int → Int
  | _, [] => 0
  | w, s :: rest => w * s + weightedSum (w + 1) rest

/-- The blocks the main LWMA loop visits for counters i, i-1, ..., 1, i.e.
map keys i down to 1: oldest visited block first. -/
def windowBlocks (c : Chain) (ctx : List Int) : Nat → Option (List Blk)
  | 0 => some []
  | i + 1 =>
    match mapAt ctx ((i : Int) + 1) with
    | none => none
    | some h =>
      match GetAncestor c h with
      | none => none
      | some b =>
        match windowBlocks c ctx i with
        | none => none
        | some rest => some (b :: rest)

/-- The avgTarget accumulation step of the loop. -/
def avgStep (N k : Int) (a : Nat) (b : Blk) : Nat :=
  (a + setCompactVal b.nBits / i64u N / i64u k) % p256

lemma ite_gt_eq_max (a b : Int) : (if a > b then a else b + 1) = max a (b + 1) := by
  split <;> omega

/-- The main LWMA loop equals the oldest-to-newest weighted fold over the
visited blocks. -/
lemma lwmaGo_spec (c : Chain) (ctx : List Int) (T k N : Int)
    (hN : i64u N ≠ 0) (hk : i64u k ≠ 0) :
    ∀ (i : Nat) (prevTs j sumW : Int) (avg : Nat),
      lwmaGo c ctx T k N i prevTs j sumW avg =
        (windowBlocks c ctx i).map (fun bs =>
          (sumW + weightedSum (j + 1) (solvetimes T prevTs (bs.map Blk.time)),
           bs.foldl (avgStep N k) avg)) := by
  intro i
  induction i with
  | zero =>
      intro prevTs j sumW avg
      simp [lwmaGo, windowBlocks, solvetimes, weightedSum]
  | succ i ih =>
      intro prevTs j sumW avg
      have hguard : ¬(i64u N = 0 ∨ i64u k = 0) := by tauto
      simp only [lwmaGo, windowBlocks]
      cases hma : mapAt ctx ((i : Int) + 1) with
      | none => simp [hma]
      | some hh =>
        simp only [hma]
        cases hga : GetAncestor c hh with
        | none => simp [hga]
        | some b =>
          simp only [hga, if_neg hguard]
          rw [ih]
          cases hwb : windowBlocks c ctx i with
          | none => simp [hwb]
          | some rest =>
            simp only [hwb, Option.map_some', List.map_cons, solvetimes,
              ite_gt_eq_max, weightedSum, List.foldl_cons, avgStep,
              Option.some.injEq, Prod.mk.injEq]
            constructor
            · ring
            · trivial

lemma solvetimes_mem (T : Int) (hT : 1 ≤ T) :
    ∀ (ts : List Int) (prev s : Int), s ∈ solvetimes T prev ts →
      1 ≤ s ∧ s ≤ 6 * T := by
  intro ts
  induction ts with
  | nil => intro prev s h; simp [solvetimes] at h
  | cons t ts ih =>
      intro prev s h
      simp only [solvetimes, List.mem_cons] at h
      rcases h with h | h
      · subst h; omega
      · exact ih _ _ h

/-- C4: in the LWMA main path, iterating the window oldest to newest with
the loop counter running N down to 1, the effective timestamp of each block
is max(blockTime, previousTimestamp + 1), every solve time lies in [1, 6*T]
(never clamped to 0, T being at least one second), and the accumulated sum
weights the solve times linearly, weight = index from the oldest block (so
the newest block receives the largest weight, the window length N). -/
theorem C4_lwma_window (c : Chain) (ctx : List Int) (T k N prevTs : Int)
    (bs : List Blk) (s : Int) (hT : 1 ≤ T) (hN : i64u N ≠ 0) (hk : i64u k ≠ 0)
    (hw : windowBlocks c ctx N.toNat = some bs)
    (hs : s ∈ solvetimes T prevTs (bs.map Blk.time)) :
    (1 ≤ s ∧ s ≤ 6 * T) ∧
    lwmaGo c ctx T k N N.toNat prevTs 0 0 0 =
      some (weightedSum 1 (solvetimes T prevTs (bs.map Blk.time)),
            bs.foldl (avgStep N k) 0) := by
  refine ⟨solvetimes_mem T hT _ _ _ hs, ?_⟩
  rw [lwmaGo_spec c ctx T k N hN hk, hw]
  simp

/-- A five-block all-proof-of-work chain used as a concrete LWMA window. -/
def chainW : Chain :=
  [⟨false, 400, 100, 0⟩, ⟨false, 300, 100, 0⟩, ⟨false, 200, 100, 0⟩,
   ⟨false, 100, 100, 0⟩, ⟨false, 0, 100, 0⟩]

theorem C4_witness :
    ((1 : Int) ≤ 100 ∧ (100 : Int) ≤ 6 * 60) ∧
    lwmaGo chainW [3, 2, 1] 60 180 2 2 100 0 0 0 =
      some (weightedSum 1 (solvetimes 60 100
              (([⟨false, 200, 100, 0⟩, ⟨false, 300, 100, 0⟩] : List Blk).map Blk.time)),
            ([⟨false, 200, 100, 0⟩, ⟨false, 300, 100, 0⟩] : List Blk).foldl
              (avgStep 2 180) 0) :=
  C4_lwma_window chainW [3, 2, 1] 60 180 2 100
    [⟨false, 200, 100, 0⟩, ⟨false, 300, 100, 0⟩] 100
    (by decide) (by decide) (by decide) (by decide) (by decide)

/-! ## Claim C1: totality of the retarget computation -/

lemma i64u_small {x : Int} (h0 : 0 ≤ x) (h1 : x < 2 ^ 64) : i64u x = x.toNat := by
  unfold i64u
  rw [Int.emod_eq_of_lt h0 h1]

lemma glbi_ne_nil (f : Bool) : ∀ c : Chain, c ≠ [] → GetLastBlockIndex f c ≠ [] := by
  intro c
  induction c with
  | nil => intro h; exact absurd rfl h
  | cons b tail ih =>
      intro _
      cases tail with
      | nil => simp [GetLastBlockIndex]
      | cons r rest =>
          rw [GetLastBlockIndex]
          split
          · simp
          · exact ih (by simp)

lemma headOptMap_ne {l : Chain} (h : l ≠ []) : l.head?.map Blk.nBits ≠ none := by
  cases l with
  | nil => exact absurd rfl h
  | cons b rest => simp

lemma ctx_mem_bounds (f : Bool) (s : Int) :
    ∀ (c : Chain) (nIdx h : Int), h ∈ getContextAux f s c nIdx →
      1 ≤ h ∧ h ≤ (c.length : Int) - 1 := by
  intro c
  induction c with
  | nil => intro nIdx h hmem; simp [getContextAux] at hmem
  | cons b tail ih =>
      intro nIdx h hmem
      cases tail with
      | nil => simp [getContextAux] at hmem
      | cons r rest =>
          rw [getContextAux] at hmem
          by_cases h1 : nIdx ≤ s
          · rw [if_pos h1] at hmem
            by_cases h2 : b.isPoS = f
            · rw [if_pos h2] at hmem
              rcases List.mem_cons.mp hmem with he | hm
              · subst he; simp
              · have := ih (nIdx + 1) h hm
                simp at this ⊢
                omega
            · rw [if_neg h2] at hmem
              have := ih nIdx h hmem
              simp at this ⊢
              omega
          · rw [if_neg h1] at hmem
            simp at hmem

lemma mapAt_some {m : List Int} {i : Int} (h1 : 1 ≤ i) (h2 : i ≤ (m.length : Int)) :
    ∃ h, mapAt m i = some h ∧ h ∈ m := by
  unfold mapAt
  rw [if_pos ⟨h1, h2⟩]
  cases hg : m.get? ((i - 1).toNat) with
  | none =>
      rw [List.get?_eq_none] at hg
      omega
  | some v => exact ⟨v, rfl, List.get?_mem hg⟩

lemma getAncestor_some {c : Chain} {h : Int} (h0 : 0 ≤ h)
    (h1 : h ≤ (c.length : Int) - 1) : ∃ b, GetAncestor c h = some b := by
  unfold GetAncestor
  rw [if_pos ⟨h0, h1⟩]
  cases hg : c.get? (((c.length : Int) - 1 - h).toNat) with
  | none =>
      rw [List.get?_eq_none] at hg
      omega
  | some b => exact ⟨b, rfl⟩

lemma lwmaGo_some (c : Chain) (ctx : List Int) (T k N : Int)
    (hN : i64u N ≠ 0) (hk : i64u k ≠ 0)
    (hctx : ∀ h ∈ ctx, 0 ≤ h ∧ h ≤ (c.length : Int) - 1) :
    ∀ i : Nat, (i : Int) ≤ (ctx.length : Int) →
      ∀ (prevTs j sumW : Int) (avg : Nat),
        lwmaGo c ctx T k N i prevTs j sumW avg ≠ none := by
  intro i
  induction i with
  | zero => intro _ prevTs j sumW avg; simp [lwmaGo]
  | succ i ih =>
      intro hi prevTs j sumW avg
      obtain ⟨hh, hma, hmem⟩ := mapAt_some (m := ctx) (i := (i : Int) + 1)
        (by omega) (by push_cast at hi ⊢; omega)
      obtain ⟨b, hga⟩ := getAncestor_some (hctx hh hmem).1 (hctx hh hmem).2
      rw [lwmaGo, hma]
      simp only [hga]
      rw [if_neg (by tauto)]
      exact ih (by push_cast at hi ⊢; omega) _ _ _ _

lemma ctx_short_count (s : Int) :
    ∀ (c : Chain) (nIdx : Int),
      ((getContextAux true s c nIdx).length : Int) < s + 1 - nIdx →
      CountPoS c 0 = ((getContextAux true s c nIdx).length : Int) := by
  intro c
  induction c with
  | nil => intro nIdx _; simp [getContextAux, CountPoS]
  | cons b tail ih =>
      intro nIdx hlen
      cases tail with
      | nil => simp [getContextAux, CountPoS]
      | cons r rest =>
          have hcond : ((b :: r :: rest).length : Int) - 1 > 0 := by simp
          rw [getContextAux] at hlen ⊢
          have hnIdx : nIdx ≤ s := by
            by_contra hcon
            rw [if_neg hcon] at hlen
            simp at hlen
            omega
          rw [if_pos hnIdx] at hlen ⊢
          rw [CountPoS, if_pos hcond]
          by_cases h2 : b.isPoS = true
          · simp only [h2, if_true, List.length_cons] at hlen ⊢
            have := ih (nIdx + 1) (by push_cast at hlen ⊢; omega)
            push_cast at this ⊢
            omega
          · simp only [h2, if_false, List.length_cons] at hlen ⊢
            have := ih nIdx (by push_cast at hlen ⊢; omega)
            push_cast at this ⊢
            omega

lemma emaFallback_some (c : Chain) (p : Params) (fP : Bool) (PL : Nat)
    (hc : c ≠ []) (hT1 : 1 ≤ p.nPowTargetSpacing)
    (hT2 : p.nPowTargetSpacing ≤ 2 ^ 20) :
    emaFallback c p fP PL p.nPowTargetSpacing ≠ none := by
  unfold emaFallback
  have hg1 := glbi_ne_nil fP c hc
  cases hgl1 : GetLastBlockIndex fP c with
  | nil => exact absurd hgl1 hg1
  | cons x xs =>
      simp only [hgl1]
      cases xs with
      | nil => simp
      | cons y ys =>
          have hg2 := glbi_ne_nil fP (y :: ys) (by simp)
          cases hgl2 : GetLastBlockIndex fP (y :: ys) with
          | nil => exact absurd hgl2 hg2
          | cons z zs =>
              simp only [hgl2]
              cases zs with
              | nil => simp
              | cons w ws =>
                  cases c with
                  | nil => exact absurd rfl hc
                  | cons bTip ctail =>
                      have hInt : Int.tdiv p.nPowTargetSpacing p.nPowTargetSpacing = 1 :=
                        Int.tdiv_self (by omega)
                      have hd : i64u ((Int.tdiv p.nPowTargetSpacing p.nPowTargetSpacing + 1) *
                          p.nPowTargetSpacing) ≠ 0 := by
                        rw [hInt, i64u_small (by omega) (by omega)]
                        omega
                      simp [hd]

lemma lwmaMain_some (c : Chain) (ctx : List Int) (T N k : Int) (PL : Nat)
    (hN : i64u N ≠ 0) (hk : i64u k ≠ 0) (hN1 : 1 ≤ N)
    (hctx : ∀ h ∈ ctx, 0 ≤ h ∧ h ≤ (c.length : Int) - 1)
    (hlen : N + 1 ≤ (ctx.length : Int)) :
    lwmaMain c ctx T N k PL ≠ none := by
  unfold lwmaMain
  obtain ⟨h0, hma, hmem⟩ := mapAt_some (by omega) hlen
  simp only [hma]
  obtain ⟨b0, hga⟩ := getAncestor_some (hctx h0 hmem).1 (hctx h0 hmem).2
  simp only [hga]
  have hNle : ((N.toNat : Nat) : Int) ≤ (ctx.length : Int) := by
    rw [Int.toNat_of_nonneg (by omega)]
    omega
  cases hres : lwmaGo c ctx T k N N.toNat b0.time 0 0 0 with
  | none => exact absurd hres (lwmaGo_some c ctx T k N hN hk hctx N.toNat hNle _ _ _ _)
  | some pr =>
      cases pr
      simp [hres]

/-- A chain whose three non-genesis blocks are all proof-of-stake, over a
proof-of-work genesis: tip height 3 = N + 1 for the window N = 2. -/
def chainPoS3 : Chain :=
  [⟨true, 400, 100, 0⟩, ⟨true, 300, 100, 0⟩, ⟨true, 200, 100, 0⟩, ⟨false, 0, 100, 0⟩]

/-- C1 counterexample: a proof-of-work retarget call at tip height N+1 on a
chain whose sampled window has no proof-of-work block: the proof-kind
filtered window is empty, no fallback applies to the proof-of-work side, and
the computation aborts at mapContext.at(N+1) (modelled none), contradicting
the claim that the lookups never access a missing key for proof-of-work
calls. -/
theorem C1_counterexample :
    Lwma3CalculateNextWorkRequired chainPoS3 paramsA false = none := by decide

/-- C1 amended: with sane parameters (positive bounded spacing and window),
a PROOF-OF-STAKE retarget call never errors: the bootstrap and legacy-EMA
fallbacks cover every short-window stake case.  A PROOF-OF-WORK call is
error-free only when the filtered context window actually holds at least
N+1 proof-of-work samples; the code has no proof-of-work fallback for a
shorter window (see the counterexample). -/
theorem C1_amended (c : Chain) (p : Params) (fP : Bool)
    (hc : c ≠ []) (hT1 : 1 ≤ p.nPowTargetSpacing)
    (hT2 : p.nPowTargetSpacing ≤ 2 ^ 20)
    (hN1 : 1 ≤ p.lwmaAveragingWindow) (hN2 : p.lwmaAveragingWindow ≤ 2 ^ 20)
    (hPow : fP = false →
      p.lwmaAveragingWindow + 1 ≤
        ((GetContextLWMA c (p.lwmaAveragingWindow + 1) false).length : Int)) :
    Lwma3CalculateNextWorkRequired c p fP ≠ none := by
  have hNu : i64u p.lwmaAveragingWindow ≠ 0 := by
    rw [i64u_small (by omega) (by omega)]
    omega
  have hku : i64u (Int.tdiv (p.lwmaAveragingWindow * (p.lwmaAveragingWindow + 1) *
      p.nPowTargetSpacing) 2) ≠ 0 := by
    have hNN : (2 : Int) ≤ p.lwmaAveragingWindow * (p.lwmaAveragingWindow + 1) := by
      have := mul_le_mul hN1 (show (2 : Int) ≤ p.lwmaAveragingWindow + 1 by omega)
        (by norm_num) (by omega)
      omega
    have h1 : (2 : Int) ≤ p.lwmaAveragingWindow * (p.lwmaAveragingWindow + 1) *
        p.nPowTargetSpacing := by
      have := mul_le_mul hNN hT1 (by norm_num) (by omega)
      omega
    have h2 : p.lwmaAveragingWindow * (p.lwmaAveragingWindow + 1) *
        p.nPowTargetSpacing ≤ 2 ^ 61 := by
      have hinner : p.lwmaAveragingWindow * (p.lwmaAveragingWindow + 1) ≤
          2 ^ 20 * (2 ^ 20 + 1) := mul_le_mul hN2 (by omega) (by omega) (by norm_num)
      have houter := mul_le_mul hinner hT2 (by omega) (by norm_num)
      have : (2 : Int) ^ 20 * (2 ^ 20 + 1) * 2 ^ 20 ≤ 2 ^ 61 := by norm_num
      omega
    rw [Int.tdiv_eq_ediv (by omega) (by norm_num)]
    rw [i64u_small (by omega) (by omega)]
    omega
  cases c with
  | nil => exact absurd rfl hc
  | cons b rest =>
      simp only [Lwma3CalculateNextWorkRequired]
      by_cases hflag : (p.fPowNoRetargeting || p.fPoSNoRetargeting) = true
      · rw [if_pos hflag]
        exact headOptMap_ne (glbi_ne_nil fP _ (by simp))
      · rw [if_neg hflag]
        by_cases hboot : heightOf (b :: rest) < p.lwmaAveragingWindow + 1
        · rw [if_pos hboot]
          simp
        · rw [if_neg hboot]
          by_cases hcond : fP = true ∧
              ((GetContextLWMA (b :: rest) (p.lwmaAveragingWindow + 1) fP).length : Int) <
                p.lwmaAveragingWindow + 1 ∧
              CountPoS (b :: rest) 0 ≤ p.lwmaAveragingWindow + 1
          · rw [if_pos hcond]
            exact emaFallback_some _ p fP _ (by simp) hT1 hT2
          · rw [if_neg hcond]
            apply lwmaMain_some _ _ _ _ _ _ hNu hku hN1
            · intro h hmem
              simp only [GetContextLWMA] at hmem
              have hb := ctx_mem_bounds fP (p.lwmaAveragingWindow + 1) (b :: rest) 0 h hmem
              omega
            · simp only [GetContextLWMA] at hcond ⊢
              cases fP with
              | false =>
                  have hgoal := hPow rfl
                  simp only [GetContextLWMA] at hgoal
                  exact hgoal
              | true =>
                  by_contra hlt
                  push_neg at hlt
                  have hcount := ctx_short_count (p.lwmaAveragingWindow + 1) (b :: rest) 0
                    (by omega)
                  exact hcond ⟨rfl, by omega, by omega⟩

theorem C1_witness :
    Lwma3CalculateNextWorkRequired chainPoS3 paramsA true ≠ none :=
  C1_amended chainPoS3 paramsA true (by decide) (by decide) (by decide)
    (by decide) (by decide) (fun h => nomatch h)

/-! ## Claim C7: the legacy EMA retarget -/

/-- The spacing clamp as the spec words it: a negative raw spacing becomes
the target spacing, then the value is capped at the branch's upper bound. -/
def clampSpacing (T bound x : Int) : Int :=
  if (if x < 0 then T else x) > bound then bound else (if x < 0 then T else x)

/-- The final clamp of the legacy engine: non-positive (zero, as the
magnitude is unsigned) or over-limit results are replaced by the limit. -/
def finalClamp (limit x : Nat) : Nat := if x = 0 ∨ x > limit then limit else x

lemma clampSpacing_mem {T bound x : Int} (hT : 1 ≤ T) (hb : T ≤ bound) :
    0 ≤ clampSpacing T bound x ∧ clampSpacing T bound x ≤ bound := by
  unfold clampSpacing
  split_ifs <;> omega

/-- C7: in the legacy EMA engine, with the governing flag clear, the spacing
actually used lies in [0, 10*T] below the QIP9 height threshold and in
[0, 20*T] at or above it (a negative raw spacing is replaced by T, which is
inside the interval); below the threshold the result is the blend
bn * ((interval-1)*T + 2*spacing) / ((interval+1)*T), and in both branches
the final value is replaced by the proof-limit target exactly when it is
zero (non-positive, unsigned) or exceeds that limit. -/
theorem C7_legacy_ema (c : Chain) (b : Blk) (rest : Chain) (t : Int) (p : Params)
    (fP : Bool) (hce : c = b :: rest)
    (hgov : (if fP then p.fPoSNoRetargeting else p.fPowNoRetargeting) = false)
    (hT1 : 1 ≤ TargetSpacing p (heightOf c + 1))
    (hT2 : TargetSpacing p (heightOf c + 1) ≤ 2 ^ 20)
    (hTs0 : 0 ≤ TargetTimespan p (heightOf c + 1))
    (hTs1 : TargetTimespan p (heightOf c + 1) ≤ 2 ^ 40) :
    (0 ≤ clampSpacing (TargetSpacing p (heightOf c + 1))
        (if heightOf c + 1 < p.QIP9Height then TargetSpacing p (heightOf c + 1) * 10
         else TargetSpacing p (heightOf c + 1) * 20) (b.time - t) ∧
     clampSpacing (TargetSpacing p (heightOf c + 1))
        (if heightOf c + 1 < p.QIP9Height then TargetSpacing p (heightOf c + 1) * 10
         else TargetSpacing p (heightOf c + 1) * 20) (b.time - t) ≤
       (if heightOf c + 1 < p.QIP9Height then TargetSpacing p (heightOf c + 1) * 10
        else TargetSpacing p (heightOf c + 1) * 20)) ∧
    (heightOf c + 1 < p.QIP9Height →
      CalculateNextWorkRequired c t p fP =
        some (getCompact (finalClamp (GetLimit (heightOf c + 1) p fP)
          (setCompactVal b.nBits *
              i64u ((DifficultyAdjustmentInterval p (heightOf c + 1) - 1) *
                  TargetSpacing p (heightOf c + 1) +
                2 * clampSpacing (TargetSpacing p (heightOf c + 1))
                    (TargetSpacing p (heightOf c + 1) * 10) (b.time - t)) % p256 /
            i64u ((DifficultyAdjustmentInterval p (heightOf c + 1) + 1) *
                TargetSpacing p (heightOf c + 1)))))) ∧
    (¬ heightOf c + 1 < p.QIP9Height →
      CalculateNextWorkRequired c t p fP =
        (mul_exp (setCompactVal b.nBits)
            (Int.tdiv (2 * (clampSpacing (TargetSpacing p (heightOf c + 1))
                (TargetSpacing p (heightOf c + 1) * 20) (b.time - t) -
                TargetSpacing p (heightOf c + 1)))
              ((StakeTimestampMask p (heightOf c + 1) : Int) + 1))
            (Int.tdiv ((DifficultyAdjustmentInterval p (heightOf c + 1) + 1) *
                TargetSpacing p (heightOf c + 1))
              ((StakeTimestampMask p (heightOf c + 1) : Int) + 1))).map
          (fun bn2 => getCompact (finalClamp (GetLimit (heightOf c + 1) p fP) bn2))) := by
  subst hce
  have hcalc : CalculateNextWorkRequired (b :: rest) t p fP =
      calcRetargetBody (b :: rest) b t p fP := by
    cases fP <;> simp_all [CalculateNextWorkRequired]
  have hI0 : 0 ≤ DifficultyAdjustmentInterval p (heightOf (b :: rest) + 1) := by
    unfold DifficultyAdjustmentInterval
    rw [Int.tdiv_eq_ediv hTs0 (by omega)]
    exact Int.ediv_nonneg hTs0 (by omega)
  have hI1 : DifficultyAdjustmentInterval p (heightOf (b :: rest) + 1) ≤ 2 ^ 40 := by
    unfold DifficultyAdjustmentInterval
    rw [Int.tdiv_eq_ediv hTs0 (by omega)]
    have := Int.ediv_le_self (TargetSpacing p (heightOf (b :: rest) + 1)) hTs0
    omega
  have hd : i64u ((DifficultyAdjustmentInterval p (heightOf (b :: rest) + 1) + 1) *
      TargetSpacing p (heightOf (b :: rest) + 1)) ≠ 0 := by
    have hx := mul_le_mul
      (show (1 : Int) ≤ DifficultyAdjustmentInterval p (heightOf (b :: rest) + 1) + 1 by omega)
      hT1 (by norm_num) (by omega)
    have hy := mul_le_mul
      (show DifficultyAdjustmentInterval p (heightOf (b :: rest) + 1) + 1 ≤ 2 ^ 40 + 1 by omega)
      hT2 (by omega) (by norm_num)
    rw [i64u_small (by omega) (by omega)]
    omega
  have harg : ∀ x y : Int, x + y + y = x + 2 * y := fun x y => by ring
  refine ⟨clampSpacing_mem hT1 (by split_ifs <;> omega), ?_, ?_⟩
  · intro hpre
    rw [hcalc]
    simp only [calcRetargetBody]
    rw [if_pos hpre, if_neg hd]
    unfold finalClamp clampSpacing
    rw [harg]
  · intro hpost
    rw [hcalc]
    simp only [calcRetargetBody, clampSpacing]
    rw [if_neg hpost]
    split
    · next hm => rw [hm]; rfl
    · next bn2 hm => rw [hm]; rfl

theorem C7_witness :
    CalculateNextWorkRequired chainB 40 paramsA false =
      some (getCompact (finalClamp (GetLimit (heightOf chainB + 1) paramsA false)
        (setCompactVal 100 *
            i64u ((DifficultyAdjustmentInterval paramsA (heightOf chainB + 1) - 1) *
                TargetSpacing paramsA (heightOf chainB + 1) +
              2 * clampSpacing (TargetSpacing paramsA (heightOf chainB + 1))
                  (TargetSpacing paramsA (heightOf chainB + 1) * 10) ((100 : Int) - 40)) % p256 /
          i64u ((DifficultyAdjustmentInterval paramsA (heightOf chainB + 1) + 1) *
              TargetSpacing paramsA (heightOf chainB + 1))))) :=
  (C7_legacy_ema chainB ⟨true, 100, 100, 0⟩ [⟨false, 0, 100, 0⟩] 40 paramsA false rfl
    (by decide) (by decide) (by decide) (by decide) (by decide)).2.1 (by decide)

/-! ## Claim C9: the RandomX seed selector -/

lemma sub32_eq {a b : Nat} (ha : a < 2 ^ 32) (hb : b ≤ a) : sub32 a b = a - b := by
  unfold sub32 p32
  omega

lemma chainLookup_nil (idx : Nat) : chainLookup [] idx = none := by
  unfold chainLookup heightOf
  rw [if_neg]
  intro hcon
  have := hcon.2
  simp at this
  omega

lemma chainLookup_ge (c : Chain) (idx : Nat) (h : 2 ^ 31 ≤ idx) :
    chainLookup c idx = none := by
  unfold chainLookup
  rw [if_neg]
  intro hcon
  have := hcon.1
  omega

/-- Normalized evaluation of GetRandomXSeed under sane parameter bounds. -/
lemma grs_cases (c : Chain) (SSH SI nHeight cur : Nat)
    (hSI1 : 1 ≤ SI) (hSI2 : SI ≤ 2 ^ 30) (hSSH : SSH < 2 ^ 31)
    (hH : nHeight < 2 ^ 31) :
    GetRandomXSeed c SSH SI nHeight cur =
      if SSH % SI < nHeight % SI then
        (chainLookup c (sub32 (nHeight - nHeight % SI) SSH)).map Blk.hashv
      else if SI + nHeight % SI ≤ nHeight then
        (chainLookup c (sub32 (nHeight - SI - nHeight % SI) SSH)).map Blk.hashv
      else if cur = 0 then c.getLast?.map Blk.hashv else some cur := by
  unfold GetRandomXSeed
  dsimp only
  have e1 : nHeight % p32 = nHeight := Nat.mod_eq_of_lt (by unfold p32; omega)
  have e2 : SSH % p32 = SSH := Nat.mod_eq_of_lt (by unfold p32; omega)
  have e3 : SI % p32 = SI := Nat.mod_eq_of_lt (by unfold p32; omega)
  rw [e1, e2, e3]
  have efc : sub32 nHeight (nHeight % SI) = nHeight - nHeight % SI :=
    sub32_eq (by omega) (Nat.mod_le _ _)
  rw [efc]
  have hrem : nHeight % SI < SI := Nat.mod_lt _ (by omega)
  have hremle : nHeight % SI ≤ nHeight := Nat.mod_le _ _
  have hK : SSH % SI < SI := Nat.mod_lt _ (by omega)
  split
  · next hnone =>
      have hcur : cur = 0 := by
        by_contra hcon
        rw [if_neg hcon] at hnone
        exact Option.noConfusion hnone
      rw [if_pos hcur] at hnone
      have hnil : c = [] := by
        cases c with
        | nil => rfl
        | cons x xs =>
            exfalso
            rw [Option.map_eq_none'] at hnone
            exact absurd hnone (by simp [List.getLast?_eq_none_iff])
      subst hnil
      split_ifs with h1 h2 <;>
        simp [chainLookup_nil, hcur, hnone]
  · next cur1 hsome =>
      by_cases hbr : SSH % SI < nHeight % SI
      · rw [if_pos (show nHeight > (nHeight - nHeight % SI + SSH % SI) % p32 by
          rw [Nat.mod_eq_of_lt
            (show nHeight - nHeight % SI + SSH % SI < p32 by unfold p32; omega)]
          omega)]
        rw [if_pos (show nHeight > nHeight - nHeight % SI by omega)]
        rw [if_pos hbr]
      · rw [if_neg (show ¬ nHeight > (nHeight - nHeight % SI + SSH % SI) % p32 by
          rw [Nat.mod_eq_of_lt
            (show nHeight - nHeight % SI + SSH % SI < p32 by unfold p32; omega)]
          omega)]
        rw [if_neg hbr]
        by_cases hbr2 : SI + nHeight % SI ≤ nHeight
        · have es1 : sub32 nHeight SI = nHeight - SI := sub32_eq (by omega) (by omega)
          have es2 : sub32 (nHeight - SI) (nHeight % SI) = nHeight - SI - nHeight % SI :=
            sub32_eq (by omega) (by omega)
          rw [es1, es2]
          rw [if_pos (show nHeight > nHeight - SI - nHeight % SI by omega)]
          rw [if_pos hbr2]
        · rw [if_neg (show ¬ nHeight > sub32 (sub32 nHeight SI) (nHeight % SI) by
            simp only [sub32, p32]
            omega)]
          rw [if_neg hbr2]
          rw [← hsome]

/-- A one-block chain whose genesis hash is 77. -/
def seedChain1 : Chain := [⟨false, 10, 1, 77⟩]

/-- C9 counterexample: with SeedStartingHeight 1000 and SeedInterval 100,
the height 550 (below SeedStartingHeight) does NOT seed from genesis: the
code walks the remainer > SwitchKey branch, computes the uint32-wrapped
index 500 - 1000, and dereferences a null chain entry (none), while the
genesis hash is 77. -/
theorem C9_counterexample :
    GetRandomXSeed seedChain1 1000 100 550 0 = none ∧
    seedChain1.getLast?.map Blk.hashv = some 77 := by decide

/-- C9 amended: heights are partitioned into windows of SeedInterval blocks
aligned at multiples of SeedInterval, with SwitchKey = SeedStartingHeight %
SeedInterval.  Past the SwitchKey offset inside the window the seed is the
hash of the block SeedStartingHeight BELOW the first block of the current
window (not that first block itself); otherwise it is the block
SeedStartingHeight below the first block of the previous window; when the
computed height underflows (which happens for most heights below
SeedStartingHeight) the lookup wraps around 2^32 and dereferences a missing
entry (an error, not a genesis fallback); only when the previous-window
computation underflows before the subtraction of SeedStartingHeight
(nHeight < SeedInterval + remainer with remainer ≤ SwitchKey) is the cached
value returned, which is the genesis hash on a fresh state.  Repeating a
query with an unchanged chain returns the identical seed. -/
theorem C9_amended (c : Chain) (SSH SI nHeight cur r : Nat)
    (hSI1 : 1 ≤ SI) (hSI2 : SI ≤ 2 ^ 30) (hSSH : SSH < 2 ^ 31)
    (hH : nHeight < 2 ^ 31) (hr : r ≠ 0) :
    (SSH % SI < nHeight % SI → SSH ≤ nHeight - nHeight % SI →
      GetRandomXSeed c SSH SI nHeight cur =
        (chainLookup c (nHeight - nHeight % SI - SSH)).map Blk.hashv) ∧
    (SSH % SI < nHeight % SI → nHeight - nHeight % SI < SSH →
      GetRandomXSeed c SSH SI nHeight cur = none) ∧
    (nHeight % SI ≤ SSH % SI → SI + nHeight % SI ≤ nHeight →
      SSH ≤ nHeight - SI - nHeight % SI →
      GetRandomXSeed c SSH SI nHeight cur =
        (chainLookup c (nHeight - SI - nHeight % SI - SSH)).map Blk.hashv) ∧
    (nHeight % SI ≤ SSH % SI → SI + nHeight % SI ≤ nHeight →
      nHeight - SI - nHeight % SI < SSH →
      GetRandomXSeed c SSH SI nHeight cur = none) ∧
    (nHeight % SI ≤ SSH % SI → nHeight < SI + nHeight % SI →
      GetRandomXSeed c SSH SI nHeight cur =
        (if cur = 0 then c.getLast?.map Blk.hashv else some cur)) ∧
    (GetRandomXSeed c SSH SI nHeight cur = some r →
      GetRandomXSeed c SSH SI nHeight r = some r) := by
  have hrem : nHeight % SI < SI := Nat.mod_lt _ (by omega)
  have hremle : nHeight % SI ≤ nHeight := Nat.mod_le _ _
  have hgc := grs_cases c SSH SI nHeight cur hSI1 hSI2 hSSH hH
  refine ⟨?_, ?_, ?_, ?_, ?_, ?_⟩
  · intro h1 h2
    rw [hgc, if_pos h1, sub32_eq (by omega) h2]
  · intro h1 h2
    rw [hgc, if_pos h1,
      show sub32 (nHeight - nHeight % SI) SSH = nHeight - nHeight % SI + 2 ^ 32 - SSH
        from by unfold sub32 p32; omega,
      chainLookup_ge _ _ (by omega)]
    rfl
  · intro h1 h2 h3
    rw [hgc, if_neg (by omega), if_pos h2, sub32_eq (by omega) h3]
  · intro h1 h2 h3
    rw [hgc, if_neg (by omega), if_pos h2,
      show sub32 (nHeight - SI - nHeight % SI) SSH =
          nHeight - SI - nHeight % SI + 2 ^ 32 - SSH
        from by unfold sub32 p32; omega,
      chainLookup_ge _ _ (by omega)]
    rfl
  · intro h1 h2
    rw [hgc, if_neg (by omega), if_neg (by omega)]
  · intro hfirst
    rw [hgc] at hfirst
    rw [grs_cases c SSH SI nHeight r hSI1 hSI2 hSSH hH]
    by_cases hbr : SSH % SI < nHeight % SI
    · rw [if_pos hbr] at hfirst ⊢
      exact hfirst
    · rw [if_neg hbr] at hfirst ⊢
      by_cases hbr2 : SI + nHeight % SI ≤ nHeight
      · rw [if_pos hbr2] at hfirst ⊢
        exact hfirst
      · rw [if_neg hbr2] at hfirst ⊢
        rw [if_neg hr]

/-- A 300-block all-proof-of-work chain whose every block hash is 9. -/
def seedChainW : Chain := List.replicate 300 ⟨false, 0, 0, 9⟩

theorem C9_witness :
    GetRandomXSeed seedChainW 1000 100 1250 0 =
      (chainLookup seedChainW (1250 - 1250 % 100 - 1000)).map Blk.hashv :=
  (C9_amended seedChainW 1000 100 1250 0 9 (by decide) (by decide) (by decide)
    (by decide) (by decide)).1 (by decide) (by decide)

/-! ## Claim C8: linear-recency weighting -/

/-- An all-proof-of-work block with the given time and bits. -/
def mkWBlk (bits : Nat) (t : Int) : Blk := ⟨false, t, bits, 0⟩

/-- Cumulative timestamps: starting after time t, successive blocks solve
after the given solve times. -/
def timesFrom (t : Int) : List Int → List Int
  | [] => []
  | s :: ss => (t + s) :: timesFrom (t + s) ss

/-- The heights n, n-1, ..., 1. -/
def descList : Nat → List Int
  | 0 => []
  | n + 1 => ((n + 1 : Nat) : Int) :: descList n

/-- A synthetic all-proof-of-work chain over a genesis block g: the block at
height 1 has time t1, and the blocks at heights 2 .. n+1 solve after the
solve times ss (oldest first); every non-genesis block carries bits. -/
def mkTestChain (t1 : Int) (g : Blk) (bits : Nat) (ss : List Int) : Chain :=
  ((t1 :: timesFrom t1 ss).reverse.map (mkWBlk bits)) ++ [g]

lemma timesFrom_length : ∀ (ss : List Int) (t : Int), (timesFrom t ss).length = ss.length := by
  intro ss
  induction ss with
  | nil => intro t; rfl
  | cons s ss ih => intro t; simp [timesFrom, ih]

lemma descList_length : ∀ n : Nat, (descList n).length = n := by
  intro n
  induction n with
  | zero => rfl
  | succ n ih => simp [descList, ih]

lemma weightedSum_append : ∀ (xs ys : List Int) (w : Int),
    weightedSum w (xs ++ ys) = weightedSum w xs + weightedSum (w + xs.length) ys := by
  intro xs
  induction xs with
  | nil => intro ys w; simp [weightedSum]
  | cons x xs ih =>
      intro ys w
      simp only [List.cons_append, weightedSum, List.length_cons]
      rw [List.append_eq, ih ys (w + 1)]
      push_cast
      rw [show w + 1 + (xs.length : Int) = w + ((xs.length : Int) + 1) by ring]
      ring

lemma weightedSum_shift : ∀ (xs : List Int) (w d : Int),
    weightedSum (w + d) xs = weightedSum w xs + d * xs.sum := by
  intro xs
  induction xs with
  | nil => intro w d; simp [weightedSum]
  | cons x xs ih =>
      intro w d
      simp only [weightedSum, List.sum_cons]
      rw [show w + d + 1 = (w + 1) + d by ring, ih]
      ring

lemma weightedSum_nonneg : ∀ (xs : List Int) (w : Int), 1 ≤ w →
    (∀ s ∈ xs, 1 ≤ s) → 0 ≤ weightedSum w xs := by
  intro xs
  induction xs with
  | nil => intro w _ _; simp [weightedSum]
  | cons x xs ih =>
      intro w hw hall
      simp only [weightedSum]
      have hx := hall x (by simp)
      have := ih (w + 1) (by omega) (fun s hs => hall s (by simp [hs]))
      nlinarith

lemma weightedSum_pos : ∀ (xs : List Int) (w : Int), 1 ≤ w →
    (∀ s ∈ xs, 1 ≤ s) → xs ≠ [] → 1 ≤ weightedSum w xs := by
  intro xs
  induction xs with
  | nil => intro w _ _ h; exact absurd rfl h
  | cons x xs ih =>
      intro w hw hall _
      simp only [weightedSum]
      have hx := hall x (by simp)
      have := weightedSum_nonneg xs (w + 1) (by omega) (fun s hs => hall s (by simp [hs]))
      nlinarith

lemma solvetimes_timesFrom (T : Int) : ∀ (ss : List Int) (t : Int),
    (∀ s ∈ ss, 1 ≤ s ∧ s ≤ 6 * T) → solvetimes T t (timesFrom t ss) = ss := by
  intro ss
  induction ss with
  | nil => intro t _; rfl
  | cons s ss ih =>
      intro t hb
      have hs := hb s (by simp)
      simp only [timesFrom, solvetimes]
      rw [show max (t + s) (t + 1) = t + s by omega,
          show min (6 * T) (t + s - t) = s by omega]
      rw [ih (t + s) (fun x hx => hb x (by simp [hx]))]

lemma avgFold_const (N k : Int) (bits : Nat) :
    ∀ (ts : List Int) (a : Nat), a < p256 →
      (ts.map (mkWBlk bits)).foldl (avgStep N k) a =
        (a + ts.length * (setCompactVal bits / i64u N / i64u k)) % p256 := by
  intro ts
  induction ts with
  | nil =>
      intro a ha
      simp [Nat.mod_eq_of_lt ha]
  | cons t ts ih =>
      intro a ha
      simp only [List.map_cons, List.foldl_cons]
      rw [show avgStep N k a (mkWBlk bits t) =
            (a + setCompactVal bits / i64u N / i64u k) % p256 from rfl]
      rw [ih _ (Nat.mod_lt _ (by unfold p256; positivity))]
      rw [Nat.mod_add_mod]
      congr 1
      simp [List.length_cons]
      ring

lemma ctx_allPow (g : Blk) (scope : Int) :
    ∀ (bs : List Blk) (nIdx : Int), (∀ b ∈ bs, b.isPoS = false) →
      nIdx + (bs.length : Int) ≤ scope + 1 →
      getContextAux false scope (bs ++ [g]) nIdx = descList bs.length := by
  intro bs
  induction bs with
  | nil => intro nIdx _ _; rfl
  | cons b bs ih =>
      intro nIdx hPow hbound
      obtain ⟨r, rest, hre⟩ : ∃ r rest, bs ++ [g] = r :: rest := by
        cases bs with
        | nil => exact ⟨g, [], rfl⟩
        | cons u us => exact ⟨u, us ++ [g], rfl⟩
      have hchain : (b :: bs) ++ [g] = b :: r :: rest := by rw [List.cons_append, hre]
      rw [hchain, getContextAux,
          if_pos (show nIdx ≤ scope by simp at hbound; omega),
          if_pos (hPow b (by simp))]
      rw [← hre]
      rw [ih (nIdx + 1) (fun x hx => hPow x (by simp [hx]))
          (by simp at hbound ⊢; omega)]
      rw [show (b :: bs).length = bs.length + 1 from rfl, descList]
      congr 1
      simp only [List.length_cons, List.length_append, List.length_nil]
      push_cast
      omega

lemma mapAt_descList : ∀ (n : Nat) (i : Int), 1 ≤ i → i ≤ (n : Int) →
    mapAt (descList n) i = some ((n : Int) - i + 1) := by
  intro n
  induction n with
  | zero => intro i h1 h2; omega
  | succ n ih =>
      intro i h1 h2
      unfold mapAt
      rw [if_pos ⟨h1, by rw [descList_length]; omega⟩]
      by_cases hi1 : i = 1
      · subst hi1
        simp [descList]
      · have hsplit : (i - 1).toNat = (i - 2).toNat + 1 := by omega
        rw [descList, hsplit, List.get?_cons_succ]
        have hih := ih (i - 1) (by omega) (by omega)
        unfold mapAt at hih
        rw [if_pos ⟨by omega, by rw [descList_length]; omega⟩] at hih
        rw [show (i - 1 - 1).toNat = (i - 2).toNat by omega] at hih
        rw [hih]
        congr 1
        omega

lemma getAncestor_append (bs : List Blk) (g : Blk) (h : Int) (h1 : 1 ≤ h)
    (h2 : h ≤ (bs.length : Int)) :
    GetAncestor (bs ++ [g]) h = bs.get? (bs.length - h.toNat) := by
  unfold GetAncestor
  rw [if_pos ⟨by omega, by simp; omega⟩]
  rw [show (((bs ++ [g]).length : Int) - 1 - h).toNat = bs.length - h.toNat by
    simp; omega]
  exact List.get?_append (by omega)

lemma windowBlocks_mkTest (t1 : Int) (g : Blk) (bits : Nat) (ss : List Int) :
    ∀ i : Nat, i ≤ ss.length →
      windowBlocks (mkTestChain t1 g bits ss) (descList (ss.length + 1)) i =
        some (((timesFrom t1 ss).drop (ss.length - i)).map (mkWBlk bits)) := by
  intro i
  induction i with
  | zero =>
      intro _
      rw [windowBlocks,
        show (timesFrom t1 ss).drop (ss.length - 0) = [] from by
          rw [Nat.sub_zero, ← timesFrom_length ss t1]
          exact List.drop_length _]
      rfl
  | succ i ih =>
      intro hi
      have hma := mapAt_descList (ss.length + 1) ((i : Int) + 1) (by omega)
        (by push_cast; omega)
      obtain ⟨v, hv⟩ : ∃ v, (timesFrom t1 ss).get? (ss.length - i - 1) = some v := by
        cases hnone : (timesFrom t1 ss).get? (ss.length - i - 1) with
        | none =>
            rw [List.get?_eq_none, timesFrom_length] at hnone
            omega
        | some v => exact ⟨v, rfl⟩
      have hblen : ((t1 :: timesFrom t1 ss).reverse.map (mkWBlk bits)).length =
          ss.length + 1 := by
        simp [timesFrom_length]
      have hga : GetAncestor (mkTestChain t1 g bits ss)
          (((ss.length + 1 : Nat) : Int) - ((i : Int) + 1) + 1) =
            some (mkWBlk bits v) := by
        rw [show mkTestChain t1 g bits ss =
            ((t1 :: timesFrom t1 ss).reverse.map (mkWBlk bits)) ++ [g] from rfl]
        rw [getAncestor_append _ g _ (by push_cast; omega)
          (by rw [hblen]; push_cast; omega)]
        rw [show ((t1 :: timesFrom t1 ss).reverse.map (mkWBlk bits)).length -
            ((((ss.length + 1 : Nat)) : Int) - ((i : Int) + 1) + 1).toNat = i from by
          rw [hblen]; omega]
        rw [List.get?_map, List.get?_eq_getElem?,
          List.getElem?_reverse (by simp [timesFrom_length]; omega)]
        rw [show (t1 :: timesFrom t1 ss).length - 1 - i = (ss.length - i - 1) + 1 from by
          simp [timesFrom_length]; omega]
        rw [List.getElem?_cons_succ, ← List.get?_eq_getElem?, hv]
        rfl
      have hwb := ih (by omega)
      rw [windowBlocks]
      simp only [hma, hga, hwb]
      have hdrop : (timesFrom t1 ss).drop (ss.length - (i + 1)) =
          v :: (timesFrom t1 ss).drop (ss.length - i) := by
        have hlt : ss.length - i - 1 < (timesFrom t1 ss).length := by
          rw [timesFrom_length]; omega
        rw [show ss.length - (i + 1) = ss.length - i - 1 from by omega,
          List.drop_eq_getElem_cons hlt,
          show ss.length - i - 1 + 1 = ss.length - i from by omega]
        congr 1
        rw [List.get?_eq_getElem?] at hv
        rw [List.getElem?_eq_getElem hlt] at hv
        exact (Option.some.injEq _ _).mp hv
      rw [hdrop]
      rfl

lemma kval_ne (N T : Int) (hN1 : 1 ≤ N) (hN2 : N ≤ 2 ^ 20)
    (hT1 : 1 ≤ T) (hT2 : T ≤ 2 ^ 20) :
    i64u (Int.tdiv (N * (N + 1) * T) 2) ≠ 0 := by
  have hNN : (2 : Int) ≤ N * (N + 1) := by
    have := mul_le_mul hN1 (show (2 : Int) ≤ N + 1 by omega) (by norm_num) (by omega)
    omega
  have h1 : (2 : Int) ≤ N * (N + 1) * T := by
    have := mul_le_mul hNN hT1 (by norm_num) (by omega)
    omega
  have h2 : N * (N + 1) * T ≤ 2 ^ 61 := by
    have hinner : N * (N + 1) ≤ 2 ^ 20 * (2 ^ 20 + 1) :=
      mul_le_mul hN2 (by omega) (by omega) (by norm_num)
    have houter := mul_le_mul hinner hT2 (by omega) (by norm_num)
    have : (2 : Int) ^ 20 * (2 ^ 20 + 1) * 2 ^ 20 ≤ 2 ^ 61 := by norm_num
    omega
  rw [Int.tdiv_eq_ediv (by omega) (by norm_num)]
  rw [i64u_small (by omega) (by omega)]
  omega

/-- The 256-bit target the LWMA main path computes on a synthetic
all-proof-of-work window with identical bits: the per-block average term
times the weighted solve-time sum, clamped at the proof-of-work limit. -/
def lwmaTargetOf (p : Params) (bits : Nat) (ss : List Int) : Nat :=
  let q := setCompactVal bits / i64u p.lwmaAveragingWindow /
    i64u (Int.tdiv (p.lwmaAveragingWindow * (p.lwmaAveragingWindow + 1) *
      p.nPowTargetSpacing) 2)
  let nt := ss.length * q % p256 * i64u (weightedSum 1 ss) % p256
  if nt > p.powLimit then p.powLimit else nt

lemma lwma3_mkTest (t1 : Int) (g : Blk) (bits : Nat) (ss : List Int) (p : Params)
    (hpow : p.fPowNoRetargeting = false) (hpos : p.fPoSNoRetargeting = false)
    (hN : p.lwmaAveragingWindow = (ss.length : Int))
    (hss1 : 1 ≤ ss.length) (hNb : ss.length ≤ 2 ^ 20)
    (hT1 : 1 ≤ p.nPowTargetSpacing) (hT2 : p.nPowTargetSpacing ≤ 2 ^ 20)
    (hss : ∀ s ∈ ss, 1 ≤ s ∧ s ≤ 6 * p.nPowTargetSpacing) :
    Lwma3CalculateNextWorkRequired (mkTestChain t1 g bits ss) p false =
      some (getCompact (lwmaTargetOf p bits ss)) := by
  have hbsne : mkTestChain t1 g bits ss ≠ [] := by simp [mkTestChain]
  obtain ⟨x, xs, hx⟩ := List.exists_cons_of_ne_nil hbsne
  have hNu : i64u p.lwmaAveragingWindow ≠ 0 := by
    rw [i64u_small (by omega) (by omega)]
    omega
  have hku : i64u (Int.tdiv (p.lwmaAveragingWindow * (p.lwmaAveragingWindow + 1) *
      p.nPowTargetSpacing) 2) ≠ 0 :=
    kval_ne _ _ (by omega) (by omega) hT1 hT2
  have hblen : ((t1 :: timesFrom t1 ss).reverse.map (mkWBlk bits)).length =
      ss.length + 1 := by
    simp [timesFrom_length]
  rw [hx]
  simp only [Lwma3CalculateNextWorkRequired]
  rw [← hx]
  rw [if_neg (show ¬(p.fPowNoRetargeting || p.fPoSNoRetargeting) = true by
    rw [hpow, hpos]; simp)]
  have hh : heightOf (mkTestChain t1 g bits ss) = (ss.length : Int) + 1 := by
    simp [mkTestChain, heightOf, timesFrom_length]
    omega
  rw [if_neg (show ¬heightOf (mkTestChain t1 g bits ss) < p.lwmaAveragingWindow + 1 by
    rw [hh, hN]; omega)]
  rw [if_neg (by simp)]
  have hctx : GetContextLWMA (mkTestChain t1 g bits ss) (p.lwmaAveragingWindow + 1) false =
      descList (ss.length + 1) := by
    have hPow : ∀ b ∈ (t1 :: timesFrom t1 ss).reverse.map (mkWBlk bits),
        b.isPoS = false := by
      intro b hb
      simp only [List.mem_map] at hb
      obtain ⟨t, _, rfl⟩ := hb
      rfl
    have hres := ctx_allPow g (p.lwmaAveragingWindow + 1)
      ((t1 :: timesFrom t1 ss).reverse.map (mkWBlk bits)) 0 hPow
      (by rw [hblen, hN]; push_cast; omega)
    rw [hblen] at hres
    exact hres
  rw [hctx]
  have hma1 : mapAt (descList (ss.length + 1)) (p.lwmaAveragingWindow + 1) = some 1 := by
    rw [hN, mapAt_descList (ss.length + 1) ((ss.length : Int) + 1) (by omega)
      (by push_cast; omega)]
    congr 1
    push_cast
    omega
  have hga1 : GetAncestor (mkTestChain t1 g bits ss) 1 = some (mkWBlk bits t1) := by
    rw [show mkTestChain t1 g bits ss =
        ((t1 :: timesFrom t1 ss).reverse.map (mkWBlk bits)) ++ [g] from rfl,
      getAncestor_append _ g 1 (by omega) (by rw [hblen]; push_cast; omega)]
    rw [show ((t1 :: timesFrom t1 ss).reverse.map (mkWBlk bits)).length -
        (1 : Int).toNat = ss.length from by rw [hblen]; omega]
    rw [List.get?_map, List.get?_eq_getElem?,
      List.getElem?_reverse (by simp [timesFrom_length])]
    rw [show (t1 :: timesFrom t1 ss).length - 1 - ss.length = 0 from by
      simp [timesFrom_length]]
    rw [List.getElem?_cons_zero]
    rfl
  have hwb : windowBlocks (mkTestChain t1 g bits ss) (descList (ss.length + 1))
      ss.length = some ((timesFrom t1 ss).map (mkWBlk bits)) := by
    have hres := windowBlocks_mkTest t1 g bits ss ss.length (le_refl _)
    rwa [Nat.sub_self, List.drop_zero] at hres
  have hmap : ((timesFrom t1 ss).map (mkWBlk bits)).map Blk.time = timesFrom t1 ss := by
    rw [List.map_map]
    exact List.map_id _
  have hgo := lwmaGo_spec (mkTestChain t1 g bits ss) (descList (ss.length + 1))
    p.nPowTargetSpacing
    (Int.tdiv (p.lwmaAveragingWindow * (p.lwmaAveragingWindow + 1) *
      p.nPowTargetSpacing) 2)
    p.lwmaAveragingWindow hNu hku p.lwmaAveragingWindow.toNat t1 0 0 0
  rw [show p.lwmaAveragingWindow.toNat = ss.length from by
    rw [hN]; exact Int.toNat_natCast _] at hgo
  rw [hwb] at hgo
  simp only [Option.map_some'] at hgo
  rw [hmap, solvetimes_timesFrom _ ss t1 hss] at hgo
  rw [avgFold_const _ _ bits (timesFrom t1 ss) 0 (by unfold p256; positivity)] at hgo
  rw [timesFrom_length] at hgo
  simp only [zero_add] at hgo
  simp only [lwmaMain, hma1, hga1]
  rw [show (mkWBlk bits t1).time = t1 from rfl]
  rw [show p.lwmaAveragingWindow.toNat = ss.length from by
    rw [hN]; exact Int.toNat_natCast _]
  rw [hgo]
  simp only [lwmaTargetOf]
  rfl

/-- paramsA with a tiny proof-of-work limit of 1. -/
def paramsTiny : Params :=
  ⟨false, false, 60, 2, 2 ^ 240, 1, 1000000, 2000000, 2 ^ 238, 2 ^ 236, 30,
   960, 960, 480, 15, 3, 1000, 100⟩

/-- C8 counterexample: two full N = 2 windows with identical blocks (bits
0x1d00ffff) and identical solve-time multisets {100, 200}, one with the long
solve time recent ([100, 200] oldest-first) and one with it old
([200, 100]).  With a small proof-limit both computed targets clamp to the
limit and Lwma3CalculateNextWorkRequired returns the SAME compact value, so
the window with longer recent solve times does not always yield a strictly
larger next target. -/
theorem C8_counterexample :
    Lwma3CalculateNextWorkRequired
        (mkTestChain 1000 ⟨false, 0, 486604799, 0⟩ 486604799 [100, 200])
        paramsTiny false =
      Lwma3CalculateNextWorkRequired
        (mkTestChain 1000 ⟨false, 0, 486604799, 0⟩ 486604799 [200, 100])
        paramsTiny false := by decide

set_option maxHeartbeats 2000000 in
/-- C8 amended: for full windows made of two half-windows S (shorter solve
times) and L (longer; strictly larger total), over identical blocks, the
window with the long half RECENT yields a strictly larger 256-bit next
target than the window with the long half old, PROVIDED the computation
stays below the clamping and wrapping boundaries: the average-target term q
is nonzero, the weighted sum fits an int64, and neither computed product
exceeds the proof-of-work limit (which is below 2^256).  The two returned
compacts encode these two targets. -/
theorem C8_monotone_amended (t1A t1B : Int) (g : Blk) (bits : Nat)
    (S L : List Int) (p : Params) (m : Nat)
    (hpow : p.fPowNoRetargeting = false) (hpos : p.fPoSNoRetargeting = false)
    (hm : 1 ≤ m) (hmb : m ≤ 2 ^ 19)
    (hSlen : S.length = m) (hLlen : L.length = m)
    (hN : p.lwmaAveragingWindow = ((2 * m : Nat) : Int))
    (hT1 : 1 ≤ p.nPowTargetSpacing) (hT2 : p.nPowTargetSpacing ≤ 2 ^ 20)
    (hS : ∀ s ∈ S, 1 ≤ s ∧ s ≤ 6 * p.nPowTargetSpacing)
    (hL : ∀ s ∈ L, 1 ≤ s ∧ s ≤ 6 * p.nPowTargetSpacing)
    (hsum : S.sum < L.sum)
    (hq : 1 ≤ setCompactVal bits / i64u p.lwmaAveragingWindow /
      i64u (Int.tdiv (p.lwmaAveragingWindow * (p.lwmaAveragingWindow + 1) *
        p.nPowTargetSpacing) 2))
    (hws : weightedSum 1 (S ++ L) < 2 ^ 63)
    (hlim : p.powLimit < p256)
    (hclamp : 2 * m * (setCompactVal bits / i64u p.lwmaAveragingWindow /
      i64u (Int.tdiv (p.lwmaAveragingWindow * (p.lwmaAveragingWindow + 1) *
        p.nPowTargetSpacing) 2)) * (weightedSum 1 (S ++ L)).toNat ≤ p.powLimit) :
    ∃ tA tB : Nat,
      Lwma3CalculateNextWorkRequired (mkTestChain t1A g bits (S ++ L)) p false =
        some (getCompact tA) ∧
      Lwma3CalculateNextWorkRequired (mkTestChain t1B g bits (L ++ S)) p false =
        some (getCompact tB) ∧
      tB < tA := by
  have hSb : ∀ s ∈ S, 1 ≤ s := fun s hs => (hS s hs).1
  have hLb : ∀ s ∈ L, 1 ≤ s := fun s hs => (hL s hs).1
  have hbothA : ∀ s ∈ S ++ L, 1 ≤ s ∧ s ≤ 6 * p.nPowTargetSpacing := by
    intro s hs
    rcases List.mem_append.mp hs with h | h
    exacts [hS s h, hL s h]
  have hbothB : ∀ s ∈ L ++ S, 1 ≤ s ∧ s ≤ 6 * p.nPowTargetSpacing := by
    intro s hs
    rcases List.mem_append.mp hs with h | h
    exacts [hL s h, hS s h]
  have hA := lwma3_mkTest t1A g bits (S ++ L) p hpow hpos
    (by rw [hN]; simp [hSlen, hLlen]; push_cast; omega)
    (by simp [hSlen, hLlen]; omega) (by simp [hSlen, hLlen]; omega) hT1 hT2 hbothA
  have hB := lwma3_mkTest t1B g bits (L ++ S) p hpow hpos
    (by rw [hN]; simp [hSlen, hLlen]; push_cast; omega)
    (by simp [hSlen, hLlen]; omega) (by simp [hSlen, hLlen]; omega) hT1 hT2 hbothB
  -- the weighted-sum comparison
  have hwA : weightedSum 1 (S ++ L) =
      weightedSum 1 S + weightedSum 1 L + (m : Int) * L.sum := by
    rw [weightedSum_append, hSlen,
      show (1 : Int) + (m : Nat) = 1 + ((m : Nat) : Int) from by push_cast; ring,
      weightedSum_shift]
    ring
  have hwB : weightedSum 1 (L ++ S) =
      weightedSum 1 L + weightedSum 1 S + (m : Int) * S.sum := by
    rw [weightedSum_append, hLlen,
      show (1 : Int) + (m : Nat) = 1 + ((m : Nat) : Int) from by push_cast; ring,
      weightedSum_shift]
    ring
  have hmullt : (m : Int) * S.sum < (m : Int) * L.sum :=
    mul_lt_mul_of_pos_left hsum (by push_cast; omega)
  have hcomp : weightedSum 1 (L ++ S) < weightedSum 1 (S ++ L) := by omega
  have hwA1 : 1 ≤ weightedSum 1 (S ++ L) :=
    weightedSum_pos (S ++ L) 1 (le_refl _) (fun s hs => (hbothA s hs).1)
      (by simp [← List.length_pos, hSlen, hLlen]; omega)
  have hwB1 : 1 ≤ weightedSum 1 (L ++ S) :=
    weightedSum_pos (L ++ S) 1 (le_refl _) (fun s hs => (hbothB s hs).1)
      (by simp [← List.length_pos, hSlen, hLlen]; omega)
  have htoNat : (weightedSum 1 (L ++ S)).toNat < (weightedSum 1 (S ++ L)).toNat := by
    omega
  -- abbreviate the quotient
  have hqle : 2 * m * (setCompactVal bits / i64u p.lwmaAveragingWindow /
      i64u (Int.tdiv (p.lwmaAveragingWindow * (p.lwmaAveragingWindow + 1) *
        p.nPowTargetSpacing) 2)) ≤ p.powLimit := by
    have h1 : 1 ≤ (weightedSum 1 (S ++ L)).toNat := by omega
    nlinarith [hclamp]
  have htA : lwmaTargetOf p bits (S ++ L) =
      2 * m * (setCompactVal bits / i64u p.lwmaAveragingWindow /
        i64u (Int.tdiv (p.lwmaAveragingWindow * (p.lwmaAveragingWindow + 1) *
          p.nPowTargetSpacing) 2)) * (weightedSum 1 (S ++ L)).toNat := by
    simp only [lwmaTargetOf, List.length_append, hSlen, hLlen]
    rw [show m + m = 2 * m from by omega]
    rw [i64u_small (show (0 : Int) ≤ weightedSum 1 (S ++ L) by omega) (by omega)]
    rw [Nat.mod_eq_of_lt (show 2 * m * (setCompactVal bits /
        i64u p.lwmaAveragingWindow /
        i64u (Int.tdiv (p.lwmaAveragingWindow * (p.lwmaAveragingWindow + 1) *
          p.nPowTargetSpacing) 2)) < p256 from by unfold p256 at hlim ⊢; omega)]
    rw [Nat.mod_eq_of_lt (show 2 * m * (setCompactVal bits /
        i64u p.lwmaAveragingWindow /
        i64u (Int.tdiv (p.lwmaAveragingWindow * (p.lwmaAveragingWindow + 1) *
          p.nPowTargetSpacing) 2)) * (weightedSum 1 (S ++ L)).toNat < p256 from by
      unfold p256 at hlim ⊢; omega)]
    rw [if_neg (by omega)]
  have htB : lwmaTargetOf p bits (L ++ S) =
      2 * m * (setCompactVal bits / i64u p.lwmaAveragingWindow /
        i64u (Int.tdiv (p.lwmaAveragingWindow * (p.lwmaAveragingWindow + 1) *
          p.nPowTargetSpacing) 2)) * (weightedSum 1 (L ++ S)).toNat := by
    have hle : 2 * m * (setCompactVal bits / i64u p.lwmaAveragingWindow /
        i64u (Int.tdiv (p.lwmaAveragingWindow * (p.lwmaAveragingWindow + 1) *
          p.nPowTargetSpacing) 2)) * (weightedSum 1 (L ++ S)).toNat ≤
        2 * m * (setCompactVal bits / i64u p.lwmaAveragingWindow /
        i64u (Int.tdiv (p.lwmaAveragingWindow * (p.lwmaAveragingWindow + 1) *
          p.nPowTargetSpacing) 2)) * (weightedSum 1 (S ++ L)).toNat :=
      Nat.mul_le_mul_left _ (by omega)
    simp only [lwmaTargetOf, List.length_append, hSlen, hLlen]
    rw [show m + m = 2 * m from by omega]
    rw [i64u_small (show (0 : Int) ≤ weightedSum 1 (L ++ S) by omega) (by omega)]
    rw [Nat.mod_eq_of_lt (show 2 * m * (setCompactVal bits /
        i64u p.lwmaAveragingWindow /
        i64u (Int.tdiv (p.lwmaAveragingWindow * (p.lwmaAveragingWindow + 1) *
          p.nPowTargetSpacing) 2)) < p256 from by unfold p256 at hlim ⊢; omega)]
    rw [Nat.mod_eq_of_lt (show 2 * m * (setCompactVal bits /
        i64u p.lwmaAveragingWindow /
        i64u (Int.tdiv (p.lwmaAveragingWindow * (p.lwmaAveragingWindow + 1) *
          p.nPowTargetSpacing) 2)) * (weightedSum 1 (L ++ S)).toNat < p256 from by
      unfold p256 at hlim ⊢; omega)]
    rw [if_neg (by omega)]
  refine ⟨lwmaTargetOf p bits (S ++ L), lwmaTargetOf p bits (L ++ S), hA, hB, ?_⟩
  rw [htA, htB]
  have hqm : 1 ≤ 2 * m * (setCompactVal bits / i64u p.lwmaAveragingWindow /
      i64u (Int.tdiv (p.lwmaAveragingWindow * (p.lwmaAveragingWindow + 1) *
        p.nPowTargetSpacing) 2)) := by nlinarith
  nlinarith [htoNat, hqm]

theorem C8_witness :
    ∃ tA tB : Nat,
      Lwma3CalculateNextWorkRequired
          (mkTestChain 1000 ⟨false, 0, 486604799, 0⟩ 486604799 ([100] ++ [200]))
          paramsA false = some (getCompact tA) ∧
      Lwma3CalculateNextWorkRequired
          (mkTestChain 1000 ⟨false, 0, 486604799, 0⟩ 486604799 ([200] ++ [100]))
          paramsA false = some (getCompact tB) ∧
      tB < tA :=
  C8_monotone_amended 1000 1000 ⟨false, 0, 486604799, 0⟩ 486604799 [100] [200]
    paramsA 1 (by decide) (by decide) (by decide) (by decide) (by decide)
    (by decide) (by decide) (by decide) (by decide) (by decide) (by decide)
    (by decide) (by decide) (by decide) (by decide) (by decide)
